import Mathlib

/-!
Verification of the numeric analysis core of the pyfda plot widgets:

* `plot_impz.py` — impulse/step-response widget: `calc_n_points` (FIR/IIR
  classification and length auto-sizing) and the numeric half of `draw_impz`
  (complex-output detection and the dB display transform);
* `plot_fft_win.py` — FFT-window viewer: `calc_win` (window metrics
  `nenbw`/`scale`, zero-padded magnitude spectrum, frequency axis) and the
  dB display transform of `update_view`.

Coefficients and samples are modelled as rationals (the Python code works on
floats; none of the properties verified here depend on rounding).  Values that
can become non-finite in floating point (a division by a zero window sum
yields `inf`/`nan` in numpy, not an exception) are modelled as `Option ℚ`,
with `none` standing for the non-finite result.
-/

namespace Pyfda

/-! ### `calc_n_points` (plot_impz.py, lines 229-263)

```
if len(self.aa) == 1:
    if len(self.bb) == 1:
        raise TypeError('No proper filter coefficients: len(a) = len(b) = 1 !')
    else:
        IIR = False
else:
    if len(self.bb) == 1:
        IIR = True
    elif not np.any(self.aa[1:]) and self.aa[0] != 0:
        IIR = False
    else:
        IIR = True
if N_user == 0:
    if IIR:
        N = 100
    else:
        N = min(len(self.bb), 100)
else:
    N = N_user
```

`np.any(xs)` on a float array is "some element is nonzero", so
`not np.any(self.aa[1:])` is "every element of `aa` after the first is zero".
`self.aa[0]` is modelled as `aa.getD 0 0`; the theorems about this branch
carry the hypothesis `aa ≠ []` under which the two agree (an empty `aa`
would raise `IndexError` in Python before the comparison). -/

/-- FIR/IIR classification of `calc_n_points`, the value of the local
variable `IIR` (or the raised `TypeError`). -/
def classify_iir (bb aa : List ℚ) : Except String Bool :=
  if aa.length = 1 then
    if bb.length = 1 then
      .error "No proper filter coefficients: len(a) = len(b) = 1 !"
    else
      .ok false
  else
    if bb.length = 1 then
      .ok true
    else if (∀ x ∈ aa.drop 1, x = 0) ∧ aa.getD 0 0 ≠ 0 then
      .ok false
    else
      .ok true

/-- `calc_n_points(N_user)`: classification followed by length auto-sizing. -/
def calc_n_points (bb aa : List ℚ) (N_user : ℕ) : Except String ℕ :=
  match classify_iir bb aa with
  | .error e => .error e
  | .ok IIR =>
      .ok (if N_user = 0 then (if IIR then 100 else min bb.length 100) else N_user)

/-- C1: the FIR/IIR classification follows exactly the claimed priority order:
degenerate error, then `len(a) = 1 → FIR`, then `len(b) = 1 → IIR`, then the
all-zero-tail / nonzero-head test → FIR, else IIR. -/
theorem calc_n_points_classification_order (bb aa : List ℚ) (ha : aa ≠ []) :
    (aa.length = 1 ∧ bb.length = 1 →
      ∃ e, classify_iir bb aa = .error e) ∧
    (aa.length = 1 ∧ bb.length ≠ 1 →
      classify_iir bb aa = .ok false) ∧
    (aa.length ≠ 1 ∧ bb.length = 1 →
      classify_iir bb aa = .ok true) ∧
    (aa.length ≠ 1 ∧ bb.length ≠ 1 ∧ (∀ x ∈ aa.drop 1, x = 0) ∧ aa.headI ≠ 0 →
      classify_iir bb aa = .ok false) ∧
    (aa.length ≠ 1 ∧ bb.length ≠ 1 ∧ ¬ ((∀ x ∈ aa.drop 1, x = 0) ∧ aa.headI ≠ 0) →
      classify_iir bb aa = .ok true) := by
  have hhead : aa.getD 0 0 = aa.headI := by
    cases aa with
    | nil => cases ha rfl
    | cons x xs => rfl
  unfold classify_iir
  rw [hhead]
  refine ⟨?_, ?_, ?_, ?_, ?_⟩
  · rintro ⟨h1, h2⟩
    rw [if_pos h1, if_pos h2]
    exact ⟨_, rfl⟩
  · rintro ⟨h1, h2⟩
    rw [if_pos h1, if_neg h2]
  · rintro ⟨h1, h2⟩
    rw [if_neg h1, if_pos h2]
  · rintro ⟨h1, h2, h3⟩
    rw [if_neg h1, if_neg h2, if_pos h3]
  · rintro ⟨h1, h2, h3⟩
    rw [if_neg h1, if_neg h2, if_neg h3]

/-- Witness for C1 at `bb = [1, 1]`, `aa = [2, 0, 0]`: all-zero tail and
nonzero head give FIR. -/
theorem calc_n_points_classification_order_witness :
    classify_iir [(1 : ℚ), 1] [(2 : ℚ), 0, 0] = .ok false := by
  apply (calc_n_points_classification_order [(1 : ℚ), 1] [(2 : ℚ), 0, 0]
    (by decide)).2.2.2.1
  refine ⟨by decide, by decide, ?_, by norm_num⟩
  intro x hx
  fin_cases hx <;> rfl

/-- C2: for a non-degenerate filter (classification succeeds), `N_user = 0`
resolves to `min (len bb) 100` for FIR and to `100` for IIR, while
`N_user > 0` is taken verbatim; concretely `bb = [1,1,1], aa = [1]` gives 3
and `bb = [1], aa = [1, -1/2]` gives 100. -/
theorem calc_n_points_auto_sizing (bb aa : List ℚ) (N_user : ℕ) (iir : Bool)
    (h : classify_iir bb aa = .ok iir) :
    calc_n_points bb aa N_user =
      .ok (if N_user = 0 then (if iir then 100 else min bb.length 100) else N_user) ∧
    calc_n_points [(1 : ℚ), 1, 1] [(1 : ℚ)] 0 = .ok 3 ∧
    calc_n_points [(1 : ℚ)] [(1 : ℚ), -(1/2)] 0 = .ok 100 := by
  refine ⟨?_, rfl, rfl⟩
  unfold calc_n_points
  rw [h]

/-- Witness for C2 at `bb = [1, 1, 1]`, `aa = [1]`, `N_user = 0`. -/
theorem calc_n_points_auto_sizing_witness :
    calc_n_points [(1 : ℚ), 1, 1] [(1 : ℚ)] 0 = .ok 3 := by
  have h := calc_n_points_auto_sizing [(1 : ℚ), 1, 1] [(1 : ℚ)] 0 false rfl
  exact h.2.1

/-- C3: `calc_n_points` fails (with the degenerate-filter `TypeError`) exactly
when both coefficient lists have length 1, independently of `N_user` — the
check is made before any length is computed, and no other combination
produces the error. -/
theorem calc_n_points_error_iff (bb aa : List ℚ) (N_user : ℕ) (_ha : aa ≠ []) :
    (∃ e, calc_n_points bb aa N_user = .error e) ↔
      aa.length = 1 ∧ bb.length = 1 := by
  constructor
  · rintro ⟨e, he⟩
    by_contra hc
    rw [Decidable.not_and_iff_or_not] at hc
    unfold calc_n_points classify_iir at he
    rcases hc with h1 | h1
    · rw [if_neg h1] at he
      by_cases h2 : bb.length = 1
      · rw [if_pos h2] at he
        exact Except.noConfusion he
      · rw [if_neg h2] at he
        by_cases h3 : (∀ x ∈ aa.drop 1, x = 0) ∧ aa.getD 0 0 ≠ 0
        · rw [if_pos h3] at he
          exact Except.noConfusion he
        · rw [if_neg h3] at he
          exact Except.noConfusion he
    · by_cases h2 : aa.length = 1
      · rw [if_pos h2, if_neg h1] at he
        exact Except.noConfusion he
      · rw [if_neg h2] at he
        by_cases h3 : bb.length = 1
        · rw [if_pos h3] at he
          exact Except.noConfusion he
        · rw [if_neg h3] at he
          by_cases h4 : (∀ x ∈ aa.drop 1, x = 0) ∧ aa.getD 0 0 ≠ 0
          · rw [if_pos h4] at he
            exact Except.noConfusion he
          · rw [if_neg h4] at he
            exact Except.noConfusion he
  · rintro ⟨h1, h2⟩
    refine ⟨"No proper filter coefficients: len(a) = len(b) = 1 !", ?_⟩
    unfold calc_n_points classify_iir
    rw [if_pos h1, if_pos h2]

/-- Witness for C3 at `bb = [1]`, `aa = [1]`, `N_user = 5`: the degenerate
filter raises the error. -/
theorem calc_n_points_error_iff_witness :
    ∃ e, calc_n_points [(1 : ℚ)] [(1 : ℚ)] 5 = .error e :=
  (calc_n_points_error_iff [(1 : ℚ)] [(1 : ℚ)] 5 (by decide)).mpr ⟨rfl, rfl⟩

/-- C10: a length-1 denominator with a longer numerator is classified FIR
without any check that the lone denominator coefficient is nonzero, and
auto-sizes to `min (len bb) 100`; concretely `bb = [1, 2]`, `aa = [0]`
yields FIR and length 2. -/
theorem calc_n_points_len1_denominator_no_zero_check (bb aa : List ℚ)
    (N_user : ℕ) (ha : aa.length = 1) (hb : 1 < bb.length) :
    classify_iir bb aa = .ok false ∧
    (N_user = 0 → calc_n_points bb aa N_user = .ok (min bb.length 100)) ∧
    calc_n_points [(1 : ℚ), 2] [(0 : ℚ)] 0 = .ok 2 := by
  have hcl : classify_iir bb aa = .ok false := by
    unfold classify_iir
    rw [if_pos ha, if_neg (by omega)]
  refine ⟨hcl, ?_, rfl⟩
  intro hN
  unfold calc_n_points
  rw [hcl, hN]
  simp

/-- Witness for C10 at `bb = [1, 2]`, `aa = [0]`, `N_user = 0`. -/
theorem calc_n_points_len1_denominator_no_zero_check_witness :
    classify_iir [(1 : ℚ), 2] [(0 : ℚ)] = .ok false ∧
    calc_n_points [(1 : ℚ), 2] [(0 : ℚ)] 0 = .ok 2 := by
  have h := calc_n_points_len1_denominator_no_zero_check [(1 : ℚ), 2] [(0 : ℚ)]
    0 (by decide) (by decide)
  exact ⟨h.1, h.2.1 rfl⟩

/-! ### `calc_win` (plot_fft_win.py, lines 226-253)

```
self.win = getattr(win, fb.fil[0]['win_fnct'])(self.N, *params)
self.nenbw = self.N * np.sum(np.square(self.win)) / (np.square(np.sum(self.win)))
self.scale = self.N / np.sum(self.win)
if self.chk_norm_f.isChecked():
    self.win *= self.scale
self.F = fftshift(fftfreq(self.N * 8, d=1. / fb.fil[0]['f_S']))
self.Win = fftshift(np.abs(fft(self.win, self.N * 8))) / self.N
```

The window generator (scipy) and the FFT magnitude (numpy) are external
numeric primitives: the generated samples `w0` and the magnitude transform
`fftAbsN` (with `fftAbsN x n` standing for `np.abs(np.fft.fft(x, n))`) are
parameters of the embedding.  `np.fft.fftfreq` / `np.fft.fftshift` are
simple enough to embed directly. -/

/-- `np.fft.fftfreq n d`: bin `k` is `k/(d*n)` for `k < ⌈n/2⌉` and
`(k-n)/(d*n)` above. -/
def fftfreq (n : ℕ) (d : ℚ) : List ℚ :=
  (List.range n).map fun k =>
    if k < (n + 1) / 2 then (k : ℚ) / (d * n) else ((k : ℚ) - n) / (d * n)

/-- `np.fft.fftshift`: roll by `⌊n/2⌋`, i.e. move the last `⌊n/2⌋` elements
(the negative frequencies) to the front. -/
def fftshift {α : Type} (x : List α) : List α :=
  x.drop ((x.length + 1) / 2) ++ x.take ((x.length + 1) / 2)

theorem fftshift_length {α : Type} (x : List α) :
    (fftshift x).length = x.length := by
  simp [fftshift]
  omega

theorem fftfreq_length (n : ℕ) (d : ℚ) : (fftfreq n d).length = n := by
  simp [fftfreq]

/-- Zero-padding to `n` points, as `np.fft.fft(x, n)` performs internally
when `n ≥ len(x)`. -/
def zero_pad (x : List ℚ) (n : ℕ) : List ℚ :=
  x ++ List.replicate (n - x.length) 0

/-- Output record of `calc_win`: the (possibly gain-corrected) window
samples, the two scalar metrics, the frequency axis and the magnitude
spectrum.  The metrics are `Option ℚ`: `none` models the non-finite float
(`inf`/`nan`) that numpy produces when the window sum is zero. -/
structure WinResult where
  win : List ℚ
  nenbw : Option ℚ
  scale : Option ℚ
  F : List ℚ
  Win : List ℚ

/-- The numeric core of `calc_win`, for resolved length `N` and generated
window samples `w0`. -/
def calc_win (fftAbsN : List ℚ → ℕ → List ℚ) (f_S : ℚ) (N : ℕ)
    (w0 : List ℚ) (norm_f : Bool) : WinResult :=
  let s := w0.sum
  let nenbw : Option ℚ :=
    if s = 0 then none else some ((N : ℚ) * (w0.map (fun x => x ^ 2)).sum / s ^ 2)
  let scale : Option ℚ :=
    if s = 0 then none else some ((N : ℚ) / s)
  let win := if norm_f then w0.map (fun x => x * ((N : ℚ) / s)) else w0
  { win := win
    nenbw := nenbw
    scale := scale
    F := fftshift (fftfreq (N * 8) (1 / f_S))
    Win := (fftshift (fftAbsN win (N * 8))).map (fun x => x / (N : ℚ)) }

/-- The rectangular window of the external window library
(`scipy.signal.windows.boxcar N`): `N` ones. -/
def boxcar (N : ℕ) : List ℚ := List.replicate N 1

/-- C4: `scale` (coherent gain) and `nenbw` are computed from the raw,
pre-normalization samples — `N / Σw` and `N·Σw² / (Σw)²` — so both metrics
are identical whether the normalize flag is set or not. -/
theorem calc_win_metrics_unnormalized (fftAbsN : List ℚ → ℕ → List ℚ)
    (f_S : ℚ) (N : ℕ) (w0 : List ℚ) (_hw : w0.length = N)
    (hs : w0.sum ≠ 0) :
    (calc_win fftAbsN f_S N w0 true).scale =
      (calc_win fftAbsN f_S N w0 false).scale ∧
    (calc_win fftAbsN f_S N w0 true).nenbw =
      (calc_win fftAbsN f_S N w0 false).nenbw ∧
    (∀ norm_f : Bool, (calc_win fftAbsN f_S N w0 norm_f).scale =
      some ((N : ℚ) / w0.sum)) ∧
    (∀ norm_f : Bool, (calc_win fftAbsN f_S N w0 norm_f).nenbw =
      some ((N : ℚ) * (w0.map (fun x => x ^ 2)).sum / w0.sum ^ 2)) := by
  refine ⟨rfl, rfl, ?_, ?_⟩ <;> intro norm_f <;> simp [calc_win, hs]

/-- Witness for C4 at `w0 = [1, 1]`, `N = 2`. -/
theorem calc_win_metrics_unnormalized_witness :
    (calc_win (fun _ _ => []) 1 2 [(1 : ℚ), 1] true).scale =
      (calc_win (fun _ _ => []) 1 2 [(1 : ℚ), 1] false).scale ∧
    (calc_win (fun _ _ => []) 1 2 [(1 : ℚ), 1] false).scale = some 1 := by
  have h := calc_win_metrics_unnormalized (fun _ _ => []) 1 2 [(1 : ℚ), 1]
    (by decide) (by norm_num)
  refine ⟨h.1, ?_⟩
  rw [h.2.2.1 false]
  norm_num

/-- C6 counterexample: for the zero-sum window `[1, -1]` the computation
does not stop with an error — `calc_win` still returns a full result whose
metrics are the non-finite floats (`none`) produced by the unguarded
division, and the spectrum is computed as usual. -/
theorem calc_win_zero_sum_counterexample :
    (calc_win (fun _ n => List.replicate n 0) 1 2 [(1 : ℚ), -1] false).scale
        = none ∧
    (calc_win (fun _ n => List.replicate n 0) 1 2 [(1 : ℚ), -1] false).nenbw
        = none ∧
    (calc_win (fun _ n => List.replicate n 0) 1 2 [(1 : ℚ), -1] false).Win.length
        = 16 := by
  refine ⟨?_, ?_, ?_⟩
  · norm_num [calc_win]
  · norm_num [calc_win]
  · simp [calc_win, fftshift_length]

/-- C6 amended: a window whose samples sum to zero does NOT raise any
error: the divisions at the `coherent_gain`/`nenbw` step are unguarded, the
metrics silently come out non-finite (`inf`/`nan`, modelled `none`) and the
rest of the result is still produced. -/
theorem calc_win_zero_sum_silent (fftAbsN : List ℚ → ℕ → List ℚ)
    (f_S : ℚ) (N : ℕ) (w0 : List ℚ) (norm_f : Bool) (hs : w0.sum = 0) :
    (calc_win fftAbsN f_S N w0 norm_f).scale = none ∧
    (calc_win fftAbsN f_S N w0 norm_f).nenbw = none := by
  constructor <;> simp [calc_win, hs]

/-- Witness for C6 (amended theorem) at `w0 = [2, -2]`. -/
theorem calc_win_zero_sum_silent_witness :
    (calc_win (fun _ _ => []) 1 2 [(2 : ℚ), -2] true).scale = none ∧
    (calc_win (fun _ _ => []) 1 2 [(2 : ℚ), -2] true).nenbw = none :=
  calc_win_zero_sum_silent (fun _ _ => []) 1 2 [(2 : ℚ), -2] true (by norm_num)

/-- C7: the rectangular (boxcar) window of any length `N ≥ 1`, unnormalized,
has coherent gain exactly 1 and NENBW exactly 1. -/
theorem boxcar_metrics_one (fftAbsN : List ℚ → ℕ → List ℚ) (f_S : ℚ)
    (N : ℕ) (hN : 1 ≤ N) :
    (calc_win fftAbsN f_S N (boxcar N) false).scale = some 1 ∧
    (calc_win fftAbsN f_S N (boxcar N) false).nenbw = some 1 := by
  have hsum : (boxcar N).sum = (N : ℚ) := by
    simp [boxcar, List.sum_replicate]
  have hsq : ((boxcar N).map (fun x => x ^ 2)).sum = (N : ℚ) := by
    simp [boxcar, List.map_replicate, List.sum_replicate]
  have hN0 : (N : ℚ) ≠ 0 := Nat.cast_ne_zero.mpr (by omega)
  constructor
  · simp [calc_win, hsum, hN0, div_self]
  · simp [calc_win, hsum, hsq, hN0]
    field_simp
    ring

/-- Witness for C7 at `family = boxcar`, `length = 64`, no shape
parameters, `normalize = false`. -/
theorem boxcar_metrics_one_witness :
    (calc_win (fun _ _ => []) 1 64 (boxcar 64) false).scale = some 1 ∧
    (calc_win (fun _ _ => []) 1 64 (boxcar 64) false).nenbw = some 1 :=
  boxcar_metrics_one (fun _ _ => []) 1 64 (by norm_num)

/-- Closed form of the frequency axis: for an even number of bins `2·m`,
`fftshift (fftfreq (2·m) (1/f_S))` is the zero-centered axis
`i ↦ (i - m) · f_S / (2·m)`. -/
theorem fftshift_fftfreq_even (m : ℕ) (f_S : ℚ) (hm : 0 < m)
    (_hfs : f_S ≠ 0) :
    fftshift (fftfreq (2 * m) (1 / f_S)) =
      (List.range (2 * m)).map fun (i : ℕ) => ((i : ℚ) - m) * f_S / (2 * m) := by
  have hm0 : (m : ℚ) ≠ 0 := Nat.cast_ne_zero.mpr hm.ne'
  have hxlen : (fftfreq (2 * m) (1 / f_S)).length = 2 * m := by
    simp [fftfreq]
  have hhalf : (2 * m + 1) / 2 = m := by omega
  apply List.ext_getElem
  · simp [fftshift_length, fftfreq_length]
  intro i h1 h2
  have hi : i < 2 * m := by
    rw [fftshift_length, hxlen] at h1
    exact h1
  rw [List.getElem_map, List.getElem_range]
  simp only [fftshift, hxlen, hhalf]
  by_cases hcase : i < m
  · have hlt : i < ((fftfreq (2 * m) (1 / f_S)).drop m).length := by
      rw [List.length_drop, hxlen]
      omega
    rw [List.getElem_append_left hlt, List.getElem_drop]
    simp only [fftfreq, List.getElem_map, List.getElem_range]
    rw [if_neg (by omega)]
    push_cast
    rw [one_div_mul_eq_div, div_div_eq_mul_div]
    ring
  · have hdlen : ((fftfreq (2 * m) (1 / f_S)).drop m).length = m := by
      rw [List.length_drop, hxlen]
      omega
    rw [List.getElem_append_right (by rw [hdlen]; omega)]
    simp only [hdlen, List.getElem_take]
    simp only [fftfreq, List.getElem_map, List.getElem_range]
    rw [if_pos (by omega)]
    push_cast [Nat.cast_sub (by omega : m ≤ i)]
    rw [one_div_mul_eq_div, div_div_eq_mul_div]

/-- C8: for a window of resolved length `N ≥ 1`, the (possibly normalized)
sample list has length `N`, spectrum and frequency axis have length `8·N`,
the spectrum is the shifted magnitude DFT of the samples zero-padded to
`8·N`, divided by `N`, and the frequency axis is `8·N` zero-centered bins at
spacing `f_S / (8·N)`.  The DFT magnitude primitive `fftAbsN` is abstract;
`hlen` (it returns as many points as requested) and `hpad` (requesting `n ≥
len(x)` points equals transforming the zero-padded input) are the numpy
`fft` contract. -/
theorem calc_win_spectrum_shape (fftAbsN : List ℚ → ℕ → List ℚ) (f_S : ℚ)
    (N : ℕ) (w0 : List ℚ) (norm_f : Bool)
    (hlen : ∀ x n, (fftAbsN x n).length = n)
    (hpad : ∀ x n, x.length ≤ n → fftAbsN x n = fftAbsN (zero_pad x n) n)
    (hw : w0.length = N) (hN : 1 ≤ N) (hfs : 0 < f_S) :
    (calc_win fftAbsN f_S N w0 norm_f).win.length = N ∧
    (calc_win fftAbsN f_S N w0 norm_f).Win.length = 8 * N ∧
    (calc_win fftAbsN f_S N w0 norm_f).F.length = 8 * N ∧
    (calc_win fftAbsN f_S N w0 norm_f).Win =
      (fftshift (fftAbsN
        (zero_pad (calc_win fftAbsN f_S N w0 norm_f).win (8 * N)) (8 * N))).map
        (fun x => x / (N : ℚ)) ∧
    (calc_win fftAbsN f_S N w0 norm_f).F =
      (List.range (8 * N)).map fun (i : ℕ) => ((i : ℚ) - 4 * N) * f_S / (8 * N) := by
  have hwl : (calc_win fftAbsN f_S N w0 norm_f).win.length = N := by
    cases norm_f <;> simp [calc_win, hw]
  refine ⟨hwl, ?_, ?_, ?_, ?_⟩
  · simp only [calc_win]
    rw [List.length_map, fftshift_length, hlen]
    omega
  · simp only [calc_win]
    rw [fftshift_length, fftfreq_length]
    omega
  · have hle : (calc_win fftAbsN f_S N w0 norm_f).win.length ≤ 8 * N := by
      rw [hwl]
      omega
    conv_rhs => rw [← hpad _ (8 * N) hle]
    simp only [calc_win]
    rw [show 8 * N = N * 8 by ring]
  · simp only [calc_win]
    rw [show N * 8 = 2 * (4 * N) by ring,
      fftshift_fftfreq_even (4 * N) f_S (by omega) hfs.ne',
      show 2 * (4 * N) = 8 * N by ring]
    apply List.map_congr_left
    intro i hi
    push_cast
    ring

/-- Witness for C8 at `N = 1`, `w0 = [1]`, `f_S = 1`, with the
length-preserving dummy transform `fun _ n => replicate n 0`. -/
theorem calc_win_spectrum_shape_witness :
    (calc_win (fun _ n => List.replicate n 0) 1 1 [(1 : ℚ)] false).win.length
        = 1 ∧
    (calc_win (fun _ n => List.replicate n 0) 1 1 [(1 : ℚ)] false).Win.length
        = 8 ∧
    (calc_win (fun _ n => List.replicate n 0) 1 1 [(1 : ℚ)] false).F.length
        = 8 ∧
    (calc_win (fun _ n => List.replicate n 0) 1 1 [(1 : ℚ)] false).F =
      (List.range 8).map fun (i : ℕ) => ((i : ℚ) - 4) / 8 := by
  have h := calc_win_spectrum_shape (fun _ n => List.replicate n 0) 1 1
    [(1 : ℚ)] false (fun x n => by simp) (fun x n hxn => rfl) rfl
    (by norm_num) (by norm_num)
  refine ⟨h.1, h.2.1, h.2.2.1, ?_⟩
  rw [h.2.2.2.2]
  apply List.map_congr_left
  intro i hi
  push_cast
  ring

/-! ### The dB display transform

`draw_impz` (plot_impz.py, lines 176-184):
```
if log:
    h = np.maximum(20 * np.log10(abs(h)), bottom)
```
`update_view` (plot_fft_win.py, lines 282-290), note: NO `abs` here:
```
if self.chk_log_t.isChecked():
    self.ax_t.plot(self.t, np.maximum(20 * np.log10(self.win), self.bottom_t))
else:
    self.ax_t.plot(self.t, self.win)
```

To model the float semantics of `np.log10` and `np.maximum` near zero and
on negative inputs, a value is `FVal`: finite, `-inf` (`log10(0)`), or `nan`
(`log10` of a negative number).  The finite value of `log10` on a positive
input is irrational, so it is an abstract parameter `lg`; nothing proved
here depends on its values.  `np.maximum(-inf, b) = b` and
`np.maximum(nan, b) = nan` (numpy propagates `nan` through `maximum`). -/

/-- A float result: finite, `-inf`, or `nan`. -/
inductive FVal where
  | fin : ℚ → FVal
  | neginf : FVal
  | nan : FVal
deriving DecidableEq

/-- `np.log10`, with `lg` giving the (irrelevant) finite values on positive
inputs. -/
def np_log10 (lg : ℚ → ℚ) (x : ℚ) : FVal :=
  if 0 < x then .fin (lg x) else if x = 0 then .neginf else .nan

/-- Multiplication of a float by the positive constant 20. -/
def fval_smul (c : ℚ) (v : FVal) : FVal :=
  match v with
  | .fin x => .fin (c * x)
  | .neginf => .neginf
  | .nan => .nan

/-- `np.maximum` against a finite bottom value: `-inf` clamps to the bottom,
`nan` propagates. -/
def np_maximum (v : FVal) (b : ℚ) : FVal :=
  match v with
  | .fin x => .fin (max x b)
  | .neginf => .fin b
  | .nan => .nan

/-- The log-scaling branch of `draw_impz` (plot_impz.py 176-184): with `log`
it is `np.maximum(20 * np.log10(abs(h)), bottom)` elementwise, without it
the series is unchanged. -/
def impz_display (lg : ℚ → ℚ) (log : Bool) (bottom : ℚ) (h : List ℚ) :
    List FVal :=
  if log then h.map (fun v => np_maximum (fval_smul 20 (np_log10 lg |v|)) bottom)
  else h.map FVal.fin

/-- The log-scaling branch of `update_view` (plot_fft_win.py 282-290):
`np.maximum(20 * np.log10(series), bottom)` — with no `abs`. -/
def win_display (lg : ℚ → ℚ) (log : Bool) (bottom : ℚ) (w : List ℚ) :
    List FVal :=
  if log then w.map (fun v => np_maximum (fval_smul 20 (np_log10 lg v)) bottom)
  else w.map FVal.fin

/-- C5 counterexample: in the window-viewer path the claimed formula
`max(20·log10(|v| + ε), floor_db)` fails — no `abs` (and no ε) is applied,
so the negative element `-1` produces `nan` (and numpy's `maximum`
propagates it), while the claim promises the finite value
`max(20·log10(1 + ε)), -80)` and "never NaN". -/
theorem display_transform_counterexample :
    win_display (fun x => x) true (-80) [-1] = [FVal.nan] := by
  simp [win_display, np_log10, np_maximum, fval_smul]
  norm_num

/-- C5 amended: with `log` set, the impulse-response path maps `v` to
`max(20·log10(|v|), floor_db)` with no ε term — a zero sample passes `-inf`
into the `max` and comes out clamped to `floor_db`, so its outputs are
never `-inf` or `nan`; the window-viewer path applies no `abs`, so positive
elements come out `max(20·log10(v), floor_db)`, zero elements clamp to
`floor_db`, and negative elements come out `nan`.  With `log` unset both
paths are the identity. -/
theorem display_transform_characterization (lg : ℚ → ℚ) (bottom : ℚ)
    (h : List ℚ) :
    impz_display lg true bottom h =
      h.map (fun v => if v = 0 then FVal.fin bottom
        else FVal.fin (max (20 * lg |v|) bottom)) ∧
    (∀ u ∈ impz_display lg true bottom h, ∃ q, u = FVal.fin q) ∧
    impz_display lg false bottom h = h.map FVal.fin ∧
    win_display lg true bottom h =
      h.map (fun v => if 0 < v then FVal.fin (max (20 * lg v) bottom)
        else if v = 0 then FVal.fin bottom else FVal.nan) ∧
    win_display lg false bottom h = h.map FVal.fin := by
  have himpz : impz_display lg true bottom h =
      h.map (fun v => if v = 0 then FVal.fin bottom
        else FVal.fin (max (20 * lg |v|) bottom)) := by
    unfold impz_display
    rw [if_pos rfl]
    apply List.map_congr_left
    intro v hv
    by_cases hz : v = 0
    · simp [hz, np_log10, fval_smul, np_maximum]
    · have habs : 0 < |v| := abs_pos.mpr hz
      simp [hz, np_log10, habs, fval_smul, np_maximum]
  refine ⟨himpz, ?_, by simp [impz_display], ?_, by simp [win_display]⟩
  · rw [himpz]
    intro u hu
    rw [List.mem_map] at hu
    obtain ⟨v, hv, hvu⟩ := hu
    by_cases hz : v = 0
    · rw [hz] at hvu
      simp at hvu
      exact ⟨bottom, hvu.symm⟩
    · rw [if_neg hz] at hvu
      exact ⟨max (20 * lg |v|) bottom, hvu.symm⟩
  · unfold win_display
    rw [if_pos rfl]
    apply List.map_congr_left
    intro v hv
    rcases lt_trichotomy v 0 with hneg | hz | hpos
    · rw [if_neg (by linarith), if_neg (by linarith)]
      simp [np_log10, fval_smul, np_maximum, not_lt.mpr hneg.le, hneg.ne]
    · simp [hz, np_log10, fval_smul, np_maximum]
    · rw [if_pos hpos]
      simp [np_log10, hpos, fval_smul, np_maximum]

/-! ### Complex-output detection of `draw_impz` (plot_impz.py, lines 170-175)

```
self.cmplx = np.any(np.iscomplex(h))
if self.cmplx:
    h_i = h.imag
    h = h.real
```
`np.iscomplex(z)` is `z.imag != 0`, elementwise.  The simulated output `h`
is modelled as a list of (real, imaginary) pairs of rationals. -/

/-- The split made by `draw_impz`: `cmplx` flag, real part, and (when
complex) the imaginary part. -/
structure RespResult where
  cmplx : Bool
  h_r : List ℚ
  h_i : Option (List ℚ)

/-- Complex detection and real/imaginary split of `draw_impz`.  When
`cmplx` is false every imaginary part is zero, so plotting the real parts
is the identity on the simulated values. -/
def split_cmplx (hs : List (ℚ × ℚ)) : RespResult :=
  if hs.any (fun z => decide (z.2 ≠ 0)) then
    { cmplx := true, h_r := hs.map Prod.fst, h_i := some (hs.map Prod.snd) }
  else
    { cmplx := false, h_r := hs.map Prod.fst, h_i := none }

/-- C9: `cmplx` is true iff some simulated output sample has a nonzero
imaginary part — decided from the numeric output itself — and in that case
`h_r`/`h_i` are the elementwise real and imaginary parts. -/
theorem draw_impz_cmplx_empirical (hs : List (ℚ × ℚ)) :
    ((split_cmplx hs).cmplx = true ↔ ∃ z ∈ hs, z.2 ≠ 0) ∧
    ((split_cmplx hs).cmplx = true →
      (split_cmplx hs).h_r = hs.map Prod.fst ∧
      (split_cmplx hs).h_i = some (hs.map Prod.snd)) := by
  by_cases hc : hs.any (fun z => decide (z.2 ≠ 0)) = true
  · have hsplit : split_cmplx hs =
        { cmplx := true, h_r := hs.map Prod.fst,
          h_i := some (hs.map Prod.snd) } := by
      unfold split_cmplx
      rw [if_pos hc]
    constructor
    · constructor
      · intro _
        rw [List.any_eq_true] at hc
        obtain ⟨z, hz, hz2⟩ := hc
        exact ⟨z, hz, of_decide_eq_true hz2⟩
      · intro _
        rw [hsplit]
    · intro _
      rw [hsplit]
      exact ⟨rfl, rfl⟩
  · have hsplit : split_cmplx hs =
        { cmplx := false, h_r := hs.map Prod.fst, h_i := none } := by
      unfold split_cmplx
      rw [if_neg hc]
    constructor
    · constructor
      · intro hct
        rw [hsplit] at hct
        exact Bool.noConfusion hct
      · rintro ⟨z, hz, hz2⟩
        exact absurd (List.any_eq_true.mpr ⟨z, hz, decide_eq_true hz2⟩) hc
    · intro hct
      rw [hsplit] at hct
      exact Bool.noConfusion hct

/-- Witness for C9 at `hs = [(1, 1)]`: one sample with nonzero imaginary
part. -/
theorem draw_impz_cmplx_empirical_witness :
    (split_cmplx [((1 : ℚ), (1 : ℚ))]).cmplx = true ∧
    (split_cmplx [((1 : ℚ), (1 : ℚ))]).h_i = some [1] := by
  have h := draw_impz_cmplx_empirical [((1 : ℚ), (1 : ℚ))]
  have hc : (split_cmplx [((1 : ℚ), (1 : ℚ))]).cmplx = true :=
    h.1.mpr ⟨(1, 1), by simp, by norm_num⟩
  exact ⟨hc, (h.2 hc).2⟩

end Pyfda
